import Mathlib

set_option autoImplicit false

/-!
Verification of the PrimeVue MCP documentation server (`src/server.mjs`).

The server loads a corpus of JSON documents into a JavaScript `Map` keyed by
document id and exposes three tools (`search_primevue_docs`,
`get_component_api`, `list_categories`) and one resource template
(`primevue://{docPath}`) over it.  We embed the query operations shallowly:

* the loaded `Map<string, PrimeVueDoc>` is modelled as a `List PrimeVueDoc`
  in the map's iteration order (a JS `Map` iterates in key-insertion order,
  and `Map.get` is modelled as `List.find?` on the id; after loading, ids are
  the map keys, hence unique);
* JS strings are Lean `String`s, `toLowerCase` is the per-character
  lower-casing `jsLower` (structurally recursive, so that concrete runs
  reduce), `includes` is contiguous-substring containment,
  `split` with a one-character separator, `indexOf`/`substring`/`replace`
  are reimplemented below on the underlying character lists;
* `Array.prototype.sort` (stable since ECMAScript 2019) with the boolean
  title-match comparator is modelled as the stable two-way partition it
  performs, and with the `localeCompare` comparators as a sort by the
  corresponding order (`localeCompare` is modelled as code-point order);
* a JS object used as a string-keyed record, and the `Map` used by
  `list_categories`, preserve key-insertion order, so grouping is modelled
  as a fold over an insertion-ordered association list;
* the resource handler's `throw` on a missing document is modelled as
  `Option.none`; the three tool handlers are total `String`-valued
  functions, matching the fact that they never throw.
-/

/-- JS `s.toLowerCase()`: per-character lower-casing, as core
`String.toLower` maps `Char.toLower` over the characters. -/
def String.jsLower (s : String) : String := String.mk (s.data.map Char.toLower)

namespace PrimeVue

/-- Code-point-wise lexicographic `≤` on character lists; the order
underlying JS string comparison (`<`, default `sort`, and our model of
`localeCompare`). -/
def charListLe : List Char → List Char → Bool
  | [], _ => true
  | _ :: _, [] => false
  | a :: as, b :: bs => if a = b then charListLe as bs else decide (a < b)

/-- Lexicographic `≤` on strings (code-point order). -/
def strLe (a b : String) : Bool := charListLe a.data b.data

/-- JS `a.includes(b)`: `b` occurs as a contiguous substring of `a`. -/
def jsIncludes (a b : String) : Bool := decide (b.data <:+: a.data)

/-- Helper for `jsSplit`: splits a character list at every occurrence of
`sep`, accumulating the current (reversed) chunk. -/
def splitCharAux (sep : Char) : List Char → List Char → List (List Char)
  | [], acc => [acc.reverse]
  | c :: rest, acc =>
    if c = sep then acc.reverse :: splitCharAux sep rest []
    else splitCharAux sep rest (c :: acc)

/-- JS `s.split(sep)` for a one-character separator: the list of chunks
between occurrences of `sep` (never empty; `"".split(sep)` is `[""]`). -/
def jsSplit (sep : Char) (s : String) : List String :=
  (splitCharAux sep s.data []).map String.mk

/-- JS `a.indexOf(b)` over character lists: the index of the first
occurrence of `pat` in `hay`, `none` standing for `-1`. -/
def idxOfAux (pat : List Char) : List Char → Option Nat
  | [] => if pat.isEmpty then some 0 else none
  | hay@(_ :: rest) =>
    if pat.isPrefixOf hay then some 0
    else (idxOfAux pat rest).map (· + 1)

/-- JS `a.indexOf(b)` on strings (`none` standing for `-1`). -/
def jsIndexOf (a b : String) : Option Nat := idxOfAux b.data a.data

/-- JS `s.replace(pat, repl)` with a string pattern: replaces the first
occurrence only (used by the server with `repl = ''`). -/
def jsReplaceFirst (s pat repl : String) : String :=
  match jsIndexOf s pat with
  | none => s
  | some i =>
      String.mk (s.data.take i) ++ repl ++ String.mk (s.data.drop (i + pat.data.length))

/-- `content` field of a `PrimeVueDoc` (`{ type, value }`). -/
structure DocContent where
  type : String
  value : String
deriving DecidableEq, Repr

/-- `metadata` field of a `PrimeVueDoc`. -/
structure DocMetadata where
  source : String
  file : String
  created : String
  updated : String
deriving DecidableEq, Repr

/-- The `PrimeVueDoc` record loaded from a corpus JSON file. -/
structure PrimeVueDoc where
  schema : String
  id : String
  title : String
  tags : List String
  content : DocContent
  metadata : DocMetadata
deriving DecidableEq, Repr

/-- `this.docs.get(docId)`: lookup by id.  The list models the `Map` in
iteration order, so ids are unique and `find?` returns the entry. -/
def docsGet (docs : List PrimeVueDoc) (docId : String) : Option PrimeVueDoc :=
  docs.find? (fun d => d.id == docId)

/-- `doc.metadata.file.split('/')[0]` (a JS `split` result is never empty,
so the index-0 access always yields a string). -/
def fileFirstSeg (file : String) : String := (jsSplit '/' file).headD ""

/-- `doc.metadata.file.split('/')[0] || 'Unknown'`: in JS the empty string
is falsy, so an empty first segment becomes the literal `'Unknown'`. -/
def categoryOrUnknown (file : String) : String :=
  if fileFirstSeg file = "" then "Unknown" else fileFirstSeg file

/-- `doc.title.toLowerCase().includes(searchTerm)` (line 117). -/
def docTitleMatch (searchTerm : String) (d : PrimeVueDoc) : Bool :=
  jsIncludes d.title.jsLower searchTerm

/-- `content.includes(searchTerm)` where `content` is the lower-cased
document body (lines 116 and 118). -/
def docContentMatch (searchTerm : String) (d : PrimeVueDoc) : Bool :=
  jsIncludes d.content.value.jsLower searchTerm

/-- `doc.tags.some(tag => tag.toLowerCase().includes(searchTerm))` (line 119). -/
def docTagsMatch (searchTerm : String) (d : PrimeVueDoc) : Bool :=
  d.tags.any (fun tag => jsIncludes tag.jsLower searchTerm)

/-- `titleMatch || contentMatch || tagsMatch` (line 121). -/
def docMatches (searchTerm : String) (d : PrimeVueDoc) : Bool :=
  docTitleMatch searchTerm d || docContentMatch searchTerm d || docTagsMatch searchTerm d

/-- The `component` pre-filter (lines 112-114): when a component name is
supplied the document is skipped unless its title contains it
(case-insensitively).  A supplied empty string is falsy in JS and skips
nothing; since every title contains the empty substring, filtering with it
is also a no-op, so the plain `Option` model is faithful. -/
def componentPass (component : Option String) (d : PrimeVueDoc) : Bool :=
  match component with
  | none => true
  | some c => jsIncludes d.title.jsLower c.jsLower

/-- `lines.filter(line => line.toLowerCase().includes(searchTerm)).slice(0, 3)`
(lines 122-125). -/
def relevantLines (searchTerm : String) (value : String) : List String :=
  ((jsSplit '\n' value).filter (fun line => jsIncludes line.jsLower searchTerm)).take 3

/-- One entry pushed onto `results` by `search_primevue_docs` (lines 129-136). -/
structure SearchResult where
  component : String
  category : String
  id : String
  snippet : String
  uri : String
  tags : List String
deriving DecidableEq, Repr

/-- The result record built for a matching document (lines 122-136). -/
def mkSearchResult (searchTerm : String) (d : PrimeVueDoc) : SearchResult :=
  { component := d.title
    category := categoryOrUnknown d.metadata.file
    id := d.id
    snippet :=
      if (relevantLines searchTerm d.content.value).length > 0 then
        String.intercalate "\n" (relevantLines searchTerm d.content.value)
      else d.title ++ " documentation"
    uri := "primevue://" ++ jsReplaceFirst d.id "/primevue/" ""
    tags := d.tags }

/-- The `results` array before the final sort (the loop of lines 111-138):
the documents are visited in map-iteration order, skipped unless they pass
the component pre-filter and match the query. -/
def searchUnsorted (docs : List PrimeVueDoc) (query : String) (component : Option String) :
    List SearchResult :=
  (docs.filter (fun d => componentPass component d && docMatches query.jsLower d)).map
    (mkSearchResult query.jsLower)

/-- `results.sort((a, b) => bTitle - aTitle)` (lines 140-144) where the keys
are the boolean title-match indicators.  `Array.prototype.sort` is stable
(ECMAScript 2019), and a stable sort by a two-valued descending key is
exactly the stable two-way partition: title-matching entries first, the
rest after, each class in its pre-sort order. -/
def sortByTitleMatch (searchTerm : String) (rs : List SearchResult) : List SearchResult :=
  rs.filter (fun r => jsIncludes r.component.jsLower searchTerm) ++
    rs.filter (fun r => !jsIncludes r.component.jsLower searchTerm)

/-- The ordered result sequence of the `search_primevue_docs` tool. -/
def searchResults (docs : List PrimeVueDoc) (query : String) (component : Option String) :
    List SearchResult :=
  sortByTitleMatch query.jsLower (searchUnsorted docs query component)

/-- The full text block returned by `search_primevue_docs` (lines 146-153). -/
def search_primevue_docs (docs : List PrimeVueDoc) (query : String)
    (component : Option String) : String :=
  let results := searchResults docs query component
  "Found " ++ toString results.length ++ " results for \"" ++ query ++ "\":\n\n" ++
    String.intercalate "\n" (results.map (fun r =>
      "**" ++ r.component ++ "** (" ++ r.category ++ ")\nTags: " ++
        String.intercalate ", " r.tags ++ "\n" ++ r.snippet ++ "\n(URI: " ++ r.uri ++ ")\n"))

/-- `Array.from(this.docs.values()).find(d => d.title.toLowerCase() ===
component.toLowerCase())` (lines 164-166). -/
def findByTitle (docs : List PrimeVueDoc) (component : String) : Option PrimeVueDoc :=
  docs.find? (fun d => d.title.jsLower == component.jsLower)

/-- The two-step lookup of `get_component_api` (lines 164-171): first by
exact case-insensitive title, then by the id
`/primevue/components/<lowercased component>`. -/
def getComponentDoc (docs : List PrimeVueDoc) (component : String) : Option PrimeVueDoc :=
  match findByTitle docs component with
  | some d => some d
  | none => docsGet docs ("/primevue/components/" ++ component.jsLower)

/-- The literal section marker `'### API'` (line 201). -/
def apiMarker : String := "### API"

/-- `apiStart > -1 ? content.substring(apiStart) : content` (lines 200-202):
the suffix of the body from the first occurrence of the marker, or the whole
body when the marker is absent. -/
def apiContentOf (value : String) : String :=
  match jsIndexOf value apiMarker with
  | some i => String.mk (value.data.drop i)
  | none => value

/-- The text returned on a `get_component_api` hit (lines 204-209).  Note:
the category here is the raw `metadata.file.split('/')[0]`, with no
`|| 'Unknown'` fallback. -/
def componentApiText (d : PrimeVueDoc) : String :=
  "# " ++ d.title ++ " API Reference\nCategory: " ++ fileFirstSeg d.metadata.file ++
    "\nTags: " ++ String.intercalate ", " d.tags ++ "\n\n" ++ apiContentOf d.content.value

/-- The lexicographic order `strLe` as a sorting relation on strings. -/
def strLeRel (a b : String) : Prop := strLe a b = true

instance : DecidableRel strLeRel := fun a b => by
  unfold strLeRel; infer_instance

/-- The comparator `a.category.localeCompare(b.category) ||
a.title.localeCompare(b.title)` (line 179) as an order on
(category, title) pairs: compare categories, and on equal categories
compare titles; `localeCompare` is modelled as code-point order. -/
def catTitleLe (a b : String × String) : Prop :=
  (if a.1 = b.1 then strLe a.2 b.2 else strLe a.1 b.1) = true

instance : DecidableRel catTitleLe := fun a b => by
  unfold catTitleLe; infer_instance

/-- `availableComponents` (lines 174-179): every document mapped to its
(category, title) pair — category with the `'Unknown'` fallback here — and
sorted by category, then title.  Comparator-equal pairs are equal, so the
sorted list is the same for any correct sort; we use insertion sort. -/
def availableComponents (docs : List PrimeVueDoc) : List (String × String) :=
  List.insertionSort catTitleLe
    (docs.map (fun d => (categoryOrUnknown d.metadata.file, d.title)))

/-- One step of the `reduce` on lines 181-185 (and of the `Map` grouping on
lines 222-232): append the title to the group of its category, creating the
group at the end on first sight.  Both a JS string-keyed object and a JS
`Map` iterate keys in insertion order. -/
def groupInsert (acc : List (String × List String)) (p : String × String) :
    List (String × List String) :=
  if acc.any (fun g => g.1 == p.1) then
    acc.map (fun g => if g.1 == p.1 then (g.1, g.2 ++ [p.2]) else g)
  else acc ++ [(p.1, [p.2])]

/-- The (category, title) pairs represented by a grouped association list:
each group's titles tagged with the group's key, in listing order.  Used to
state what the grouped listings contain. -/
def flattenGroups (acc : List (String × List String)) : List (String × String) :=
  acc.flatMap (fun g => g.2.map (fun t => (g.1, t)))

/-- `componentsByCategory` (lines 181-185): the sorted pairs grouped into an
insertion-ordered record keyed by category. -/
def componentsByCategory (docs : List PrimeVueDoc) : List (String × List String) :=
  (availableComponents docs).foldl groupInsert []

/-- `availableList` (lines 187-190): the not-found listing body. -/
def availableListText (docs : List PrimeVueDoc) : String :=
  String.intercalate "\n"
    ((componentsByCategory docs).map (fun g =>
      "**" ++ g.1 ++ "**: " ++ String.intercalate ", " g.2))

/-- The full text returned by the `get_component_api` tool (lines 163-210). -/
def get_component_api (docs : List PrimeVueDoc) (component : String) : String :=
  match getComponentDoc docs component with
  | some d => componentApiText d
  | none =>
      "Component \"" ++ component ++ "\" not found.\n\nAvailable components:\n" ++
        availableListText docs

/-- JS truthiness of the optional `category` argument: `category && ...` and
`category ? ... : ...` treat the empty string as absent. -/
def truthyOpt : Option String → Option String
  | some "" => none
  | o => o

/-- The (category, title) pairs visited by the `list_categories` loop
(lines 222-232), in map-iteration order, after the optional
case-insensitive category filter. -/
def listCategoryPairs (docs : List PrimeVueDoc) (category : Option String) :
    List (String × String) :=
  docs.filterMap (fun d =>
    let docCategory := categoryOrUnknown d.metadata.file
    match truthyOpt category with
    | some c => if docCategory.jsLower == c.jsLower then some (docCategory, d.title) else none
    | none => some (docCategory, d.title))

/-- The `categories` map of `list_categories` (lines 220-232) as an
insertion-ordered association list. -/
def categoriesGroups (docs : List PrimeVueDoc) (category : Option String) :
    List (String × List String) :=
  (listCategoryPairs docs category).foldl groupInsert []

/-- `components.sort()` (line 236): the JS default sort compares strings;
modelled as insertion sort by code-point order (equal-comparing strings are
equal, so the sorted list is the same for any correct sort). -/
def sortStrings (l : List String) : List String :=
  List.insertionSort strLeRel l

/-- The text rendered for one category group (lines 235-238). -/
def renderCategoryGroup (g : String × List String) : String :=
  "**" ++ g.1 ++ "** (" ++ toString (sortStrings g.2).length ++ " items)\n" ++
    String.intercalate "\n" ((sortStrings g.2).map (fun c => "  - " ++ c))

/-- The full text returned by the `list_categories` tool (lines 219-249). -/
def list_categories (docs : List PrimeVueDoc) (category : Option String) : String :=
  let result :=
    String.intercalate "\n\n" ((categoriesGroups docs category).map renderCategoryGroup)
  match truthyOpt category with
  | some c => "Components in \"" ++ c ++ "\" category:\n\n" ++ result
  | none => "PrimeVue Documentation Categories:\n\n" ++ result

/-- One `contents` entry of a resource-read response (lines 90-96). -/
structure ResourceContents where
  uri : String
  mimeType : String
  text : String
deriving DecidableEq, Repr

/-- The `primevue://{docPath}` resource handler (lines 77-98): reconstructs
the id `/primevue/<docPath>`, looks it up, and either returns the raw body
as `text/markdown` or throws `Documentation not found` — the throw is
modelled as `none`.  This is the only operation of the server that surfaces
a missing document as a failure; the three tool handlers above are total. -/
def resolvePrimevueDoc (docs : List PrimeVueDoc) (uriHref docPath : String) :
    Option ResourceContents :=
  match docsGet docs ("/primevue/" ++ docPath) with
  | none => none
  | some doc => some { uri := uriHref, mimeType := "text/markdown", text := doc.content.value }


/-! ## Sample corpus used to exercise the operations on concrete inputs -/

/-- A small component document whose body carries an API section. -/
def sampleButton : PrimeVueDoc :=
  { schema := "1.0", id := "/primevue/components/button", title := "Button",
    tags := ["form", "button"],
    content := { type := "text/markdown", value := "Button usage. ### API\nprops: label" },
    metadata := { source := "https://primevue.org/button/", file := "components/button.json",
                  created := "2024", updated := "2024" } }

/-- A component document with no API marker in its body. -/
def sampleAccordion : PrimeVueDoc :=
  { schema := "1.0", id := "/primevue/components/accordion", title := "accordion",
    tags := ["panel"],
    content := { type := "text/markdown", value := "Accordion usage" },
    metadata := { source := "https://primevue.org/accordion/", file := "components/accordion.json",
                  created := "2024", updated := "2024" } }

/-- A document matching the query `query` only through its body. -/
def sampleZebra : PrimeVueDoc :=
  { schema := "1.0", id := "/primevue/misc/zebra", title := "zebra",
    tags := [],
    content := { type := "text/markdown", value := "has query inside" },
    metadata := { source := "https://primevue.org/zebra/", file := "misc/zebra.json",
                  created := "2024", updated := "2024" } }

/-- A document matching the query `query` through its title. -/
def sampleQueryDoc : PrimeVueDoc :=
  { schema := "1.0", id := "/primevue/guides/query", title := "my query page",
    tags := [],
    content := { type := "text/markdown", value := "nothing" },
    metadata := { source := "https://primevue.org/query/", file := "guides/query.json",
                  created := "2024", updated := "2024" } }

/-- A document whose `metadata.file` is empty. -/
def sampleGhost : PrimeVueDoc :=
  { schema := "1.0", id := "/primevue/ghost", title := "ghost",
    tags := [],
    content := { type := "text/markdown", value := "spooky" },
    metadata := { source := "https://primevue.org/ghost/", file := "",
                  created := "2024", updated := "2024" } }

/-! ## Order properties of the lexicographic string comparison -/

theorem charListLe_refl (l : List Char) : charListLe l l = true := by
  induction l with
  | nil => rfl
  | cons x xs ih => simp [charListLe, ih]

theorem charListLe_total (a : List Char) : ∀ b, charListLe a b = true ∨ charListLe b a = true := by
  induction a with
  | nil => intro b; exact Or.inl rfl
  | cons x xs ih =>
    intro b
    cases b with
    | nil => exact Or.inr rfl
    | cons y ys =>
      by_cases hxy : x = y
      · subst hxy
        simpa [charListLe] using ih ys
      · rcases lt_or_gt_of_ne hxy with h | h
        · exact Or.inl (by simp [charListLe, hxy, h])
        · exact Or.inr (by simp [charListLe, Ne.symm hxy, h])

theorem charListLe_trans :
    ∀ (a b c : List Char), charListLe a b = true → charListLe b c = true →
      charListLe a c = true := by
  intro a
  induction a with
  | nil => intro b c _ _; rfl
  | cons x xs ih =>
    intro b c hab hbc
    cases b with
    | nil => simp [charListLe] at hab
    | cons y ys =>
      cases c with
      | nil => simp [charListLe] at hbc
      | cons z zs =>
        by_cases hxy : x = y
        · subst hxy
          by_cases hxz : x = z
          · subst hxz
            simp only [charListLe, if_pos rfl] at hab hbc ⊢
            exact ih ys zs hab hbc
          · simp only [charListLe, if_pos rfl] at hab
            simpa [charListLe, hxz] using hbc
        · by_cases hyz : y = z
          · subst hyz
            simpa [charListLe, hxy] using hab
          · simp only [charListLe, if_neg hxy, decide_eq_true_eq] at hab
            simp only [charListLe, if_neg hyz, decide_eq_true_eq] at hbc
            have hxz : x < z := lt_trans hab hbc
            simp [charListLe, ne_of_lt hxz, hxz]

theorem charListLe_antisymm :
    ∀ (a b : List Char), charListLe a b = true → charListLe b a = true → a = b := by
  intro a
  induction a with
  | nil =>
    intro b _ hba
    cases b with
    | nil => rfl
    | cons y ys => simp [charListLe] at hba
  | cons x xs ih =>
    intro b hab hba
    cases b with
    | nil => simp [charListLe] at hab
    | cons y ys =>
      by_cases hxy : x = y
      · subst hxy
        simp only [charListLe, if_pos rfl] at hab hba
        rw [ih ys hab hba]
      · simp only [charListLe, if_neg hxy, decide_eq_true_eq] at hab
        simp only [charListLe, if_neg (Ne.symm hxy), decide_eq_true_eq] at hba
        exact absurd hba (lt_asymm hab)

theorem strLe_refl (a : String) : strLe a a = true := charListLe_refl a.data

theorem strLe_total (a b : String) : strLe a b = true ∨ strLe b a = true :=
  charListLe_total a.data b.data

theorem strLe_trans {a b c : String} (hab : strLe a b = true) (hbc : strLe b c = true) :
    strLe a c = true := charListLe_trans a.data b.data c.data hab hbc

theorem strLe_antisymm {a b : String} (hab : strLe a b = true) (hba : strLe b a = true) :
    a = b := by
  have h := charListLe_antisymm a.data b.data hab hba
  exact congrArg String.mk h

theorem strLeRel_isTotal : IsTotal String strLeRel := ⟨fun a b => strLe_total a b⟩

theorem strLeRel_isTrans : IsTrans String strLeRel := ⟨fun _ _ _ => strLe_trans⟩

theorem catTitleLe_isTotal : IsTotal (String × String) catTitleLe := by
  constructor
  intro a b
  unfold catTitleLe
  by_cases h : a.1 = b.1
  · rw [if_pos h, if_pos h.symm]
    exact strLe_total a.2 b.2
  · rw [if_neg h, if_neg (Ne.symm h)]
    exact strLe_total a.1 b.1

theorem catTitleLe_isTrans : IsTrans (String × String) catTitleLe := by
  constructor
  intro a b c hab hbc
  unfold catTitleLe at hab hbc ⊢
  by_cases h1 : a.1 = b.1
  · by_cases h2 : b.1 = c.1
    · have h3 : a.1 = c.1 := h1.trans h2
      rw [if_pos h1] at hab
      rw [if_pos h2] at hbc
      rw [if_pos h3]
      exact strLe_trans hab hbc
    · have h3 : a.1 ≠ c.1 := fun h => h2 (h1 ▸ h)
      rw [if_neg h2] at hbc
      rw [if_neg h3, h1]
      exact hbc
  · by_cases h2 : b.1 = c.1
    · have h3 : a.1 ≠ c.1 := fun h => h1 (h ▸ h2.symm)
      rw [if_neg h1] at hab
      rw [if_neg h3, ← h2]
      exact hab
    · rw [if_neg h1] at hab
      rw [if_neg h2] at hbc
      have h3 : a.1 ≠ c.1 := by
        intro h
        exact h1 (strLe_antisymm hab (h ▸ hbc))
      rw [if_neg h3]
      exact strLe_trans hab hbc

/-! ## Substring and index-of helpers -/

theorem jsIncludes_of_parts (a b : String) (x y : List Char)
    (h : x ++ b.data ++ y = a.data) : jsIncludes a b = true :=
  decide_eq_true ⟨x, y, h⟩

theorem idxOfAux_eq_some (pat : List Char) :
    ∀ (hay : List Char) (i : Nat), idxOfAux pat hay = some i →
      pat.isPrefixOf (hay.drop i) = true ∧
      ∀ j, j < i → pat.isPrefixOf (hay.drop j) = false := by
  intro hay
  induction hay with
  | nil =>
    intro i h
    by_cases hp : pat.isEmpty
    · simp only [idxOfAux, if_pos hp] at h
      obtain rfl : (0 : Nat) = i := Option.some.inj h
      refine ⟨?_, fun j hj => absurd hj (Nat.not_lt_zero j)⟩
      cases pat with
      | nil => rfl
      | cons _ _ => simp at hp
    · simp only [idxOfAux, if_neg hp] at h
      exact absurd h (by simp)
  | cons c rest ih =>
    intro i h
    by_cases hp : pat.isPrefixOf (c :: rest) = true
    · simp only [idxOfAux, if_pos hp] at h
      obtain rfl : (0 : Nat) = i := Option.some.inj h
      exact ⟨hp, fun j hj => absurd hj (Nat.not_lt_zero j)⟩
    · simp only [idxOfAux, if_neg hp] at h
      obtain ⟨i', hi', rfl⟩ := Option.map_eq_some'.mp h
      obtain ⟨h1, h2⟩ := ih i' hi'
      refine ⟨h1, ?_⟩
      intro j hj
      cases j with
      | zero => exact Bool.eq_false_iff.mpr hp
      | succ j' => exact h2 j' (Nat.lt_of_succ_lt_succ hj)

theorem idxOfAux_eq_none (pat : List Char) :
    ∀ (hay : List Char), idxOfAux pat hay = none →
      ∀ j, pat.isPrefixOf (hay.drop j) = false := by
  intro hay
  induction hay with
  | nil =>
    intro h j
    by_cases hp : pat.isEmpty
    · simp [idxOfAux, hp] at h
    · simp only [List.drop_nil]
      cases pat with
      | nil => simp at hp
      | cons _ _ => rfl
  | cons c rest ih =>
    intro h j
    by_cases hp : pat.isPrefixOf (c :: rest) = true
    · simp [idxOfAux, hp] at h
    · simp only [idxOfAux, if_neg hp, Option.map_eq_none'] at h
      cases j with
      | zero => exact Bool.eq_false_iff.mpr hp
      | succ j' => exact ih h j'

/-! ## The search pipeline -/

theorem sortByTitleMatch_perm (st : String) (rs : List SearchResult) :
    (sortByTitleMatch st rs).Perm rs := by
  unfold sortByTitleMatch
  exact List.filter_append_perm _ rs

theorem mem_searchResults_iff (docs : List PrimeVueDoc) (query : String)
    (component : Option String) (r : SearchResult) :
    r ∈ searchResults docs query component ↔
      ∃ d, d ∈ docs ∧ componentPass component d = true ∧
        docMatches query.jsLower d = true ∧ mkSearchResult query.jsLower d = r := by
  unfold searchResults
  rw [(sortByTitleMatch_perm query.jsLower _).mem_iff]
  unfold searchUnsorted
  simp only [List.mem_map, List.mem_filter, Bool.and_eq_true]
  constructor
  · rintro ⟨d, ⟨hd, hpass, hmatch⟩, heq⟩
    exact ⟨d, hd, hpass, hmatch, heq⟩
  · rintro ⟨d, hd, hpass, hmatch, heq⟩
    exact ⟨d, ⟨hd, hpass, hmatch⟩, heq⟩

/-! ## Grouping into an insertion-ordered association list -/

theorem groupKeys_map_update (acc : List (String × List String)) (k t : String) :
    (acc.map (fun g => if g.1 == k then (g.1, g.2 ++ [t]) else g)).map Prod.fst =
      acc.map Prod.fst := by
  induction acc with
  | nil => rfl
  | cons g acc ih =>
    simp only [List.map_cons]
    rw [ih]
    congr 1
    by_cases h : g.1 == k
    · rw [if_pos h]
    · rw [if_neg h]

theorem mem_groupKeys_groupInsert (acc : List (String × List String)) (p : String × String)
    (k : String) :
    k ∈ (groupInsert acc p).map Prod.fst ↔ k ∈ acc.map Prod.fst ∨ k = p.1 := by
  unfold groupInsert
  by_cases h : acc.any (fun g => g.1 == p.1) = true
  · rw [if_pos h, groupKeys_map_update]
    constructor
    · exact Or.inl
    · rintro (hk | rfl)
      · exact hk
      · obtain ⟨g, hg, hgk⟩ := List.any_eq_true.mp h
        have hg1 : g.1 = p.1 := by simpa using hgk
        exact hg1 ▸ List.mem_map_of_mem Prod.fst hg
  · rw [if_neg h]
    simp

theorem nodup_groupKeys_groupInsert (acc : List (String × List String)) (p : String × String)
    (h : (acc.map Prod.fst).Nodup) : ((groupInsert acc p).map Prod.fst).Nodup := by
  unfold groupInsert
  by_cases hm : acc.any (fun g => g.1 == p.1) = true
  · rw [if_pos hm, groupKeys_map_update]
    exact h
  · rw [if_neg hm, List.map_append]
    simp only [List.map_cons, List.map_nil]
    rw [List.nodup_append]
    refine ⟨h, List.nodup_singleton _, ?_⟩
    intro a ha hb
    rw [Bool.not_eq_true] at hm
    obtain ⟨g, hg, hga⟩ := List.mem_map.mp ha
    have := List.any_eq_false.mp hm g hg
    have ha1 : a = p.1 := by simpa using hb
    exact this (by simp [hga, ha1])

theorem nodup_groupKeys_foldl (l : List (String × String)) :
    ∀ acc, (acc.map Prod.fst).Nodup →
      ((l.foldl groupInsert acc).map Prod.fst).Nodup := by
  induction l with
  | nil => intro acc h; exact h
  | cons p l ih => intro acc h; exact ih _ (nodup_groupKeys_groupInsert acc p h)

theorem mem_groupKeys_foldl (l : List (String × String)) :
    ∀ acc (k : String),
      k ∈ (l.foldl groupInsert acc).map Prod.fst ↔
        k ∈ acc.map Prod.fst ∨ k ∈ l.map Prod.fst := by
  induction l with
  | nil => intro acc k; simp
  | cons p l ih =>
    intro acc k
    rw [List.foldl_cons, ih, mem_groupKeys_groupInsert]
    simp [or_assoc]

theorem flattenGroups_append (a b : List (String × List String)) :
    flattenGroups (a ++ b) = flattenGroups a ++ flattenGroups b := by
  simp [flattenGroups]

theorem flattenGroups_map_update (acc : List (String × List String)) (k t : String)
    (hnd : (acc.map Prod.fst).Nodup) (hmem : acc.any (fun g => g.1 == k) = true) :
    (flattenGroups (acc.map (fun g => if g.1 == k then (g.1, g.2 ++ [t]) else g))).Perm
      (flattenGroups acc ++ [(k, t)]) := by
  induction acc with
  | nil => simp at hmem
  | cons g acc ih =>
    rw [List.map_cons]
    by_cases hk : g.1 == k
    · have hgk : g.1 = k := by simpa using hk
      have hnotin : g.1 ∉ acc.map Prod.fst := (List.nodup_cons.mp hnd).1
      have htail : acc.map (fun g => if g.1 == k then (g.1, g.2 ++ [t]) else g) = acc := by
        have : ∀ g' ∈ acc, (if g'.1 == k then (g'.1, g'.2 ++ [t]) else g') = g' := by
          intro g' hg'
          have hne : ¬(g'.1 == k) = true := by
            intro he
            apply hnotin
            rw [hgk, ← (by simpa using he : g'.1 = k)]
            exact List.mem_map_of_mem Prod.fst hg'
          rw [if_neg hne]
        rw [List.map_congr_left this, List.map_id']
      rw [if_pos hk, htail]
      simp only [flattenGroups, List.flatMap_cons, List.map_append, List.map_cons,
        List.map_nil, List.append_assoc]
      apply List.Perm.append_left
      rw [hgk]
      exact List.perm_append_comm
    · have hnd' : (acc.map Prod.fst).Nodup := (List.nodup_cons.mp hnd).2
      have hmem' : acc.any (fun g => g.1 == k) = true := by
        rcases List.any_eq_true.mp hmem with ⟨g', hg', hk'⟩
        rcases List.mem_cons.mp hg' with rfl | hg'
        · exact absurd hk' hk
        · exact List.any_eq_true.mpr ⟨g', hg', hk'⟩
      rw [if_neg hk]
      simp only [flattenGroups, List.flatMap_cons, List.append_assoc]
      exact List.Perm.append_left _ (ih hnd' hmem')

theorem flattenGroups_groupInsert (acc : List (String × List String)) (p : String × String)
    (hnd : (acc.map Prod.fst).Nodup) :
    (flattenGroups (groupInsert acc p)).Perm (flattenGroups acc ++ [p]) := by
  unfold groupInsert
  by_cases hm : acc.any (fun g => g.1 == p.1) = true
  · rw [if_pos hm]
    simpa using flattenGroups_map_update acc p.1 p.2 hnd hm
  · rw [if_neg hm, flattenGroups_append]
    simp [flattenGroups]

theorem flattenGroups_foldl (l : List (String × String)) :
    ∀ acc, (acc.map Prod.fst).Nodup →
      (flattenGroups (l.foldl groupInsert acc)).Perm (flattenGroups acc ++ l) := by
  induction l with
  | nil => intro acc _; simp
  | cons p l ih =>
    intro acc hnd
    rw [List.foldl_cons]
    have h1 := ih (groupInsert acc p) (nodup_groupKeys_groupInsert acc p hnd)
    have h2 := (flattenGroups_groupInsert acc p hnd).append_right l
    have h3 : (flattenGroups acc ++ [p]) ++ l = flattenGroups acc ++ p :: l := by
      rw [List.append_assoc]
      rfl
    rw [← h3]
    exact h1.trans h2

theorem listCategoryPairs_none (docs : List PrimeVueDoc) :
    listCategoryPairs docs none =
      docs.map (fun d => (categoryOrUnknown d.metadata.file, d.title)) := by
  induction docs with
  | nil => rfl
  | cons d docs ih =>
    simp only [listCategoryPairs] at ih ⊢
    rw [List.filterMap_cons, List.map_cons]
    exact congrArg _ ih

theorem foldl_groupInsert_sorted (l : List (String × String)) :
    ∀ acc : List (String × List String),
      l.Pairwise catTitleLe →
      (acc.map Prod.fst).Nodup →
      (acc.map Prod.fst).Pairwise strLeRel →
      (∀ g ∈ acc, g.2.Pairwise strLeRel) →
      (∀ g ∈ acc, ∀ p ∈ l, strLe g.1 p.1 = true) →
      (∀ g ∈ acc, ∀ t ∈ g.2, ∀ p ∈ l, p.1 = g.1 → strLe t p.2 = true) →
      ((l.foldl groupInsert acc).map Prod.fst).Pairwise strLeRel ∧
      (∀ g ∈ l.foldl groupInsert acc, g.2.Pairwise strLeRel) := by
  induction l with
  | nil => intro acc _ _ h2 h3 _ _; exact ⟨h2, h3⟩
  | cons p l ih =>
    intro acc hl h1 h2 h3 h4 h5
    rw [List.foldl_cons]
    obtain ⟨hp, hl'⟩ := List.pairwise_cons.mp hl
    have hkey : ∀ q ∈ l, strLe p.1 q.1 = true := by
      intro q hq
      have hpq := hp q hq
      unfold catTitleLe at hpq
      by_cases he : p.1 = q.1
      · rw [he]; exact strLe_refl q.1
      · rwa [if_neg he] at hpq
    have htitle : ∀ q ∈ l, q.1 = p.1 → strLe p.2 q.2 = true := by
      intro q hq he
      have hpq := hp q hq
      unfold catTitleLe at hpq
      rwa [if_pos he.symm] at hpq
    have hnd' := nodup_groupKeys_groupInsert acc p h1
    by_cases hm : acc.any (fun g => g.1 == p.1) = true
    · have hgi : groupInsert acc p =
          acc.map (fun g => if g.1 == p.1 then (g.1, g.2 ++ [p.2]) else g) := by
        unfold groupInsert
        rw [if_pos hm]
      rw [hgi] at hnd' ⊢
      apply ih
      · exact hl'
      · exact hnd'
      · rw [groupKeys_map_update]
        exact h2
      · intro g' hg'
        obtain ⟨g, hg, rfl⟩ := List.mem_map.mp hg'
        by_cases hk : g.1 == p.1
        · rw [if_pos hk]
          rw [List.pairwise_append]
          refine ⟨h3 g hg, by simp, ?_⟩
          intro t ht b hb
          have hb1 : b = p.2 := List.mem_singleton.mp hb
          subst hb1
          have hgk : g.1 = p.1 := by simpa using hk
          exact h5 g hg t ht p (List.mem_cons_self p l) hgk.symm
        · rw [if_neg hk]
          exact h3 g hg
      · intro g' hg' q hq
        obtain ⟨g, hg, rfl⟩ := List.mem_map.mp hg'
        have hfst : (if g.1 == p.1 then (g.1, g.2 ++ [p.2]) else g).1 = g.1 := by
          by_cases hk : g.1 == p.1
          · rw [if_pos hk]
          · rw [if_neg hk]
        rw [hfst]
        exact h4 g hg q (List.mem_cons_of_mem p hq)
      · intro g' hg' t ht q hq he
        obtain ⟨g, hg, rfl⟩ := List.mem_map.mp hg'
        by_cases hk : g.1 == p.1
        · rw [if_pos hk] at ht he
          have he' : q.1 = g.1 := by simpa using he
          rcases (by simpa using ht : t ∈ g.2 ∨ t = p.2) with ht' | ht1
          · exact h5 g hg t ht' q (List.mem_cons_of_mem p hq) he'
          · subst ht1
            have hgk : g.1 = p.1 := by simpa using hk
            exact htitle q hq (he'.trans hgk)
        · rw [if_neg hk] at ht he
          exact h5 g hg t ht q (List.mem_cons_of_mem p hq) he
    · have hgi : groupInsert acc p = acc ++ [(p.1, [p.2])] := by
        unfold groupInsert
        rw [if_neg hm]
      rw [hgi] at hnd' ⊢
      apply ih
      · exact hl'
      · exact hnd'
      · rw [List.map_append]
        simp only [List.map_cons, List.map_nil]
        rw [List.pairwise_append]
        refine ⟨h2, by simp, ?_⟩
        intro a ha b hb
        have hb1 : b = p.1 := List.mem_singleton.mp hb
        subst hb1
        obtain ⟨g, hg, rfl⟩ := List.mem_map.mp ha
        exact h4 g hg p (List.mem_cons_self p l)
      · intro g' hg'
        rcases List.mem_append.mp hg' with hg | hg
        · exact h3 g' hg
        · have hg1 : g' = (p.1, [p.2]) := List.mem_singleton.mp hg
          subst hg1
          simp
      · intro g' hg' q hq
        rcases List.mem_append.mp hg' with hg | hg
        · exact h4 g' hg q (List.mem_cons_of_mem p hq)
        · have hg1 : g' = (p.1, [p.2]) := List.mem_singleton.mp hg
          subst hg1
          exact hkey q hq
      · intro g' hg' t ht q hq he
        rcases List.mem_append.mp hg' with hg | hg
        · exact h5 g' hg t ht q (List.mem_cons_of_mem p hq) he
        · have hg1 : g' = (p.1, [p.2]) := List.mem_singleton.mp hg
          subst hg1
          have ht1 : t = p.2 := List.mem_singleton.mp ht
          subst ht1
          exact htitle q hq (by simpa using he)

/-! ## Claim C1 -/

/-- C1: for every loaded collection and every query string q, `Search(q)`
with no component filter returns an entry for exactly those documents D
such that the lower-cased q is a substring of the lower-cased title, of the
lower-cased body, or of some lower-cased tag — no false positives and no
false negatives. -/
theorem c1_search_matches_exactly (docs : List PrimeVueDoc) (q : String) (r : SearchResult) :
    r ∈ searchResults docs q none ↔
      ∃ d, d ∈ docs ∧
        (jsIncludes d.title.jsLower q.jsLower = true ∨
         jsIncludes d.content.value.jsLower q.jsLower = true ∨
         ∃ t ∈ d.tags, jsIncludes t.jsLower q.jsLower = true) ∧
        r = mkSearchResult q.jsLower d := by
  rw [mem_searchResults_iff]
  constructor
  · rintro ⟨d, hd, _, hmatch, heq⟩
    refine ⟨d, hd, ?_, heq.symm⟩
    simpa [docMatches, docTitleMatch, docContentMatch, docTagsMatch,
      List.any_eq_true, or_assoc] using hmatch
  · rintro ⟨d, hd, hmatch, heq⟩
    refine ⟨d, hd, rfl, ?_, heq.symm⟩
    simpa [docMatches, docTitleMatch, docContentMatch, docTagsMatch,
      List.any_eq_true, or_assoc] using hmatch

/-! ## Claim C2 -/

theorem partition_position {α : Type} (p : α → Bool) (l A B : List α) (hl : l = A ++ B)
    (hA : ∀ a ∈ A, p a = true) (hB : ∀ b ∈ B, p b = false) (i j : Nat)
    (hi : i < l.length) (hj : j < l.length)
    (hpi : p (l[i]) = true) (hpj : p (l[j]) = false) : i < j := by
  subst hl
  have hiA : i < A.length := by
    by_contra hc
    rw [List.getElem_append i hi, dif_neg hc] at hpi
    rw [hB _ (List.getElem_mem _)] at hpi
    exact absurd hpi (by simp)
  have hjB : ¬ j < A.length := by
    intro hc
    rw [List.getElem_append j hj, dif_pos hc] at hpj
    rw [hA _ (List.getElem_mem _)] at hpj
    exact absurd hpj (by simp)
  omega

/-- C2: in the ordered result sequence of `Search(q)`, every entry whose
title contains the query (case-insensitively) appears before every entry
whose title does not, and each of the two classes retains its encounter
order from collection iteration (the order of the pre-sort results): a
stable two-way partition. -/
theorem c2_title_partition (docs : List PrimeVueDoc) (q : String) (i j : Nat)
    (hi : i < (searchResults docs q none).length)
    (hj : j < (searchResults docs q none).length)
    (hti : jsIncludes (searchResults docs q none)[i].component.jsLower q.jsLower = true)
    (htj : jsIncludes (searchResults docs q none)[j].component.jsLower q.jsLower = false) :
    i < j ∧
    (searchResults docs q none).filter
        (fun r => jsIncludes r.component.jsLower q.jsLower) =
      (searchUnsorted docs q none).filter
        (fun r => jsIncludes r.component.jsLower q.jsLower) ∧
    (searchResults docs q none).filter
        (fun r => !jsIncludes r.component.jsLower q.jsLower) =
      (searchUnsorted docs q none).filter
        (fun r => !jsIncludes r.component.jsLower q.jsLower) := by
  refine ⟨?_, ?_, ?_⟩
  · exact partition_position (fun r => jsIncludes r.component.jsLower q.jsLower)
      (searchResults docs q none)
      ((searchUnsorted docs q none).filter
        (fun r => jsIncludes r.component.jsLower q.jsLower))
      ((searchUnsorted docs q none).filter
        (fun r => !jsIncludes r.component.jsLower q.jsLower))
      rfl
      (fun a ha => (List.mem_filter.mp ha).2)
      (fun b hb => by simpa using (List.mem_filter.mp hb).2)
      i j hi hj hti htj
  · show ((searchUnsorted docs q none).filter _ ++ (searchUnsorted docs q none).filter _).filter _ = _
    rw [List.filter_append, List.filter_filter, List.filter_filter]
    simp
  · show ((searchUnsorted docs q none).filter _ ++ (searchUnsorted docs q none).filter _).filter _ = _
    rw [List.filter_append, List.filter_filter, List.filter_filter]
    simp

/-- Witness for C2 on a concrete two-document corpus: with query `query`,
the title-matching entry is listed first even though collection iteration
produced it second. -/
theorem c2_title_partition_witness :
    jsIncludes (((searchResults [sampleZebra, sampleQueryDoc] "query" none).get
        ⟨0, by decide⟩).component.jsLower) "query".jsLower = true ∧
    jsIncludes (((searchResults [sampleZebra, sampleQueryDoc] "query" none).get
        ⟨1, by decide⟩).component.jsLower) "query".jsLower = false ∧
    (0 < 1 ∧
      (searchResults [sampleZebra, sampleQueryDoc] "query" none).filter
          (fun r => jsIncludes r.component.jsLower "query".jsLower) =
        (searchUnsorted [sampleZebra, sampleQueryDoc] "query" none).filter
          (fun r => jsIncludes r.component.jsLower "query".jsLower) ∧
      (searchResults [sampleZebra, sampleQueryDoc] "query" none).filter
          (fun r => !jsIncludes r.component.jsLower "query".jsLower) =
        (searchUnsorted [sampleZebra, sampleQueryDoc] "query" none).filter
          (fun r => !jsIncludes r.component.jsLower "query".jsLower)) :=
  ⟨by decide, by decide,
    c2_title_partition [sampleZebra, sampleQueryDoc] "query" 0 1
      (by decide) (by decide) (by decide) (by decide)⟩

/-! ## Claim C6 -/

/-- C6: `Search(q, component = c)` equals `Search(q)` run over the
collection pre-filtered to documents whose title contains c
(case-insensitively); hence every entry of the filtered search is an entry
of the unfiltered search whose title contains c — the component argument is
only a pre-filter, never a match criterion. -/
theorem c6_component_subset (docs : List PrimeVueDoc) (q c : String) :
    searchResults docs q (some c) =
      searchResults (docs.filter (fun d => jsIncludes d.title.jsLower c.jsLower)) q none ∧
    ∀ r ∈ searchResults docs q (some c),
      r ∈ searchResults docs q none ∧ jsIncludes r.component.jsLower c.jsLower = true := by
  constructor
  · unfold searchResults
    congr 1
    unfold searchUnsorted
    congr 1
    rw [List.filter_filter]
    apply List.filter_congr
    intro d _
    simp [componentPass, Bool.and_comm]
  · intro r hr
    rw [mem_searchResults_iff] at hr
    obtain ⟨d, hd, hpass, hmatch, heq⟩ := hr
    constructor
    · rw [mem_searchResults_iff]
      exact ⟨d, hd, rfl, hmatch, heq⟩
    · have hc : r.component = d.title := by
        rw [← heq]
        simp [mkSearchResult]
      rw [hc]
      simpa [componentPass] using hpass

/-! ## Claim C8 -/

/-- C8: for each document matched by `Search(q)`, the entry's snippet is
built from at most the first 3 lines of the body (split on newlines) that
contain the query case-insensitively, joined in their original order; if no
line contains the query the snippet is the document's title followed by
` documentation`. -/
theorem c8_snippet_shape (docs : List PrimeVueDoc) (q : String) (component : Option String)
    (r : SearchResult) (hr : r ∈ searchResults docs q component) :
    ∃ d, d ∈ docs ∧ r = mkSearchResult q.jsLower d ∧
      r.snippet =
        (if (relevantLines q.jsLower d.content.value).length > 0 then
          String.intercalate "\n" (relevantLines q.jsLower d.content.value)
        else d.title ++ " documentation") ∧
      (relevantLines q.jsLower d.content.value).length ≤ 3 ∧
      relevantLines q.jsLower d.content.value <+:
        (jsSplit '\n' d.content.value).filter
          (fun line => jsIncludes line.jsLower q.jsLower) ∧
      (∀ line ∈ relevantLines q.jsLower d.content.value,
        line ∈ jsSplit '\n' d.content.value ∧ jsIncludes line.jsLower q.jsLower = true) ∧
      ((∀ line ∈ jsSplit '\n' d.content.value, jsIncludes line.jsLower q.jsLower = false) →
        r.snippet = d.title ++ " documentation") := by
  rw [mem_searchResults_iff] at hr
  obtain ⟨d, hd, _, _, heq⟩ := hr
  refine ⟨d, hd, heq.symm, ?_, ?_, ?_, ?_, ?_⟩
  · rw [← heq]
    simp [mkSearchResult]
  · unfold relevantLines
    rw [List.length_take]
    exact min_le_left 3 _
  · exact List.take_prefix 3 _
  · intro line hl
    have hl' := List.mem_of_mem_take hl
    exact ⟨(List.mem_filter.mp hl').1, (List.mem_filter.mp hl').2⟩
  · intro hnone
    have hempty : relevantLines q.jsLower d.content.value = [] := by
      unfold relevantLines
      rw [List.filter_eq_nil_iff.mpr ?_]
      · rfl
      · intro a ha
        rw [hnone a ha]
        simp
    rw [← heq]
    show (if (relevantLines q.jsLower d.content.value).length > 0 then _ else _) = _
    rw [hempty]
    rfl

/-- Witness for C8: the single entry found for query `query` over the
one-document corpus, whose only matching line is the whole body. -/
theorem c8_snippet_shape_witness :
    ((searchResults [sampleZebra] "query" none).get ⟨0, by decide⟩) ∈
        searchResults [sampleZebra] "query" none ∧
    (∃ d, d ∈ [sampleZebra] ∧
      ((searchResults [sampleZebra] "query" none).get ⟨0, by decide⟩) =
        mkSearchResult "query".jsLower d ∧
      ((searchResults [sampleZebra] "query" none).get ⟨0, by decide⟩).snippet =
        (if (relevantLines "query".jsLower d.content.value).length > 0 then
          String.intercalate "\n" (relevantLines "query".jsLower d.content.value)
        else d.title ++ " documentation") ∧
      (relevantLines "query".jsLower d.content.value).length ≤ 3 ∧
      relevantLines "query".jsLower d.content.value <+:
        (jsSplit '\n' d.content.value).filter
          (fun line => jsIncludes line.jsLower "query".jsLower) ∧
      (∀ line ∈ relevantLines "query".jsLower d.content.value,
        line ∈ jsSplit '\n' d.content.value ∧
          jsIncludes line.jsLower "query".jsLower = true) ∧
      ((∀ line ∈ jsSplit '\n' d.content.value,
          jsIncludes line.jsLower "query".jsLower = false) →
        ((searchResults [sampleZebra] "query" none).get ⟨0, by decide⟩).snippet =
          d.title ++ " documentation")) :=
  ⟨by decide, c8_snippet_shape [sampleZebra] "query" none _ (by decide)⟩

/-! ## Claim C5 -/

/-- C5: resolving `primevue://{docPath}` returns the raw body with mime
type `text/markdown` of the loaded document whose id is
`/primevue/` ++ docPath, and raises the not-found failure (modelled as
`none`) exactly when no such id is loaded.  The three tool operations are
total `String`-valued functions, so this resource path is the only
operation that surfaces "not found" as a hard failure. -/
theorem c5_resource_resolution (docs : List PrimeVueDoc) (uriHref docPath : String) :
    (∀ d, docsGet docs ("/primevue/" ++ docPath) = some d →
      resolvePrimevueDoc docs uriHref docPath =
        some { uri := uriHref, mimeType := "text/markdown", text := d.content.value } ∧
      d ∈ docs ∧ d.id = "/primevue/" ++ docPath) ∧
    (resolvePrimevueDoc docs uriHref docPath = none ↔
      ∀ d ∈ docs, d.id ≠ "/primevue/" ++ docPath) := by
  constructor
  · intro d h
    refine ⟨?_, ?_, ?_⟩
    · unfold resolvePrimevueDoc
      rw [h]
    · exact List.mem_of_find?_eq_some h
    · simpa using List.find?_some h
  · constructor
    · intro h d hd hid
      cases hfind : docsGet docs ("/primevue/" ++ docPath) with
      | none =>
        have := List.find?_eq_none.mp hfind d hd
        exact this (by simpa using hid)
      | some d' =>
        unfold resolvePrimevueDoc at h
        rw [hfind] at h
        simp at h
    · intro h
      cases hfind : docsGet docs ("/primevue/" ++ docPath) with
      | none =>
        unfold resolvePrimevueDoc
        rw [hfind]
      | some d' =>
        have hmem := List.mem_of_find?_eq_some hfind
        have hid : d'.id = "/primevue/" ++ docPath := by simpa using List.find?_some hfind
        exact absurd hid (h d' hmem)

/-! ## Claim C3 -/

/-- C3: `GetComponentAPI(component)` selects its document by (a) exact
case-insensitive equality between the component name and a document title,
and only when no title matches, (b) exact key lookup of
`/primevue/components/` ++ the lower-cased component; when both fail the
tool returns the fallback listing as a normal result, never an error. -/
theorem c3_lookup_strategy (docs : List PrimeVueDoc) (c : String) :
    ((∃ d ∈ docs, d.title.jsLower = c.jsLower) →
      ∃ d ∈ docs, d.title.jsLower = c.jsLower ∧ getComponentDoc docs c = some d) ∧
    ((∀ d ∈ docs, d.title.jsLower ≠ c.jsLower) →
      getComponentDoc docs c = docsGet docs ("/primevue/components/" ++ c.jsLower)) ∧
    (getComponentDoc docs c = none →
      get_component_api docs c =
        "Component \"" ++ c ++ "\" not found.\n\nAvailable components:\n" ++
          availableListText docs) := by
  refine ⟨?_, ?_, ?_⟩
  · rintro ⟨d, hd, he⟩
    have hsome : (findByTitle docs c).isSome := by
      unfold findByTitle
      rw [List.find?_isSome]
      exact ⟨d, hd, by simpa using he⟩
    obtain ⟨d', hfind⟩ := Option.isSome_iff_exists.mp hsome
    refine ⟨d', List.mem_of_find?_eq_some hfind, ?_, ?_⟩
    · simpa using List.find?_some hfind
    · unfold getComponentDoc
      rw [hfind]
  · intro h
    have hnone : findByTitle docs c = none := by
      unfold findByTitle
      rw [List.find?_eq_none]
      intro x hx
      simpa using h x hx
    unfold getComponentDoc
    rw [hnone]
  · intro h
    unfold get_component_api
    rw [h]

/-! ## Claim C7 -/

/-- C7: when `GetComponentAPI` finds a document, the returned text contains
the suffix of `content.value` starting at the first occurrence of the
literal marker `### API` (the whole body when the marker is absent), and
embeds the document's title, its raw category (first path segment of
`metadata.file`), and its comma-joined tags. -/
theorem c7_api_extract (docs : List PrimeVueDoc) (c : String) (d : PrimeVueDoc)
    (h : getComponentDoc docs c = some d) :
    get_component_api docs c = componentApiText d ∧
    jsIncludes (get_component_api docs c) d.title = true ∧
    jsIncludes (get_component_api docs c) (fileFirstSeg d.metadata.file) = true ∧
    jsIncludes (get_component_api docs c) (String.intercalate ", " d.tags) = true ∧
    jsIncludes (get_component_api docs c) (apiContentOf d.content.value) = true ∧
    (∀ i, jsIndexOf d.content.value apiMarker = some i →
      apiContentOf d.content.value = String.mk (d.content.value.data.drop i) ∧
      apiMarker.data.isPrefixOf (d.content.value.data.drop i) = true ∧
      ∀ j, j < i → apiMarker.data.isPrefixOf (d.content.value.data.drop j) = false) ∧
    (jsIndexOf d.content.value apiMarker = none →
      apiContentOf d.content.value = d.content.value) := by
  have happ : get_component_api docs c = componentApiText d := by
    unfold get_component_api
    rw [h]
  refine ⟨happ, ?_, ?_, ?_, ?_, ?_, ?_⟩
  · rw [happ]
    apply jsIncludes_of_parts _ _ ("# ".data)
      ((" API Reference\nCategory: " ++ fileFirstSeg d.metadata.file ++ "\nTags: " ++
        String.intercalate ", " d.tags ++ "\n\n" ++ apiContentOf d.content.value).data)
    simp [componentApiText, String.data_append]
  · rw [happ]
    apply jsIncludes_of_parts _ _
      (("# " ++ d.title ++ " API Reference\nCategory: ").data)
      (("\nTags: " ++ String.intercalate ", " d.tags ++ "\n\n" ++
        apiContentOf d.content.value).data)
    simp [componentApiText, String.data_append]
  · rw [happ]
    apply jsIncludes_of_parts _ _
      (("# " ++ d.title ++ " API Reference\nCategory: " ++ fileFirstSeg d.metadata.file ++
        "\nTags: ").data)
      (("\n\n" ++ apiContentOf d.content.value).data)
    simp [componentApiText, String.data_append]
  · rw [happ]
    apply jsIncludes_of_parts _ _
      (("# " ++ d.title ++ " API Reference\nCategory: " ++ fileFirstSeg d.metadata.file ++
        "\nTags: " ++ String.intercalate ", " d.tags ++ "\n\n").data)
      ([])
    simp [componentApiText, String.data_append]
  · intro i hidx
    obtain ⟨h1, h2⟩ := idxOfAux_eq_some apiMarker.data d.content.value.data i hidx
    refine ⟨?_, h1, h2⟩
    unfold apiContentOf
    rw [hidx]
  · intro hidx
    unfold apiContentOf
    rw [hidx]

/-- Witness for C7: `get_component_api` on `button` finds `sampleButton`
(case-insensitive title match) and returns its API section. -/
theorem c7_api_extract_witness :
    getComponentDoc [sampleAccordion, sampleButton] "button" = some sampleButton ∧
    (get_component_api [sampleAccordion, sampleButton] "button" =
        componentApiText sampleButton ∧
      jsIncludes (get_component_api [sampleAccordion, sampleButton] "button")
        sampleButton.title = true ∧
      jsIncludes (get_component_api [sampleAccordion, sampleButton] "button")
        (fileFirstSeg sampleButton.metadata.file) = true ∧
      jsIncludes (get_component_api [sampleAccordion, sampleButton] "button")
        (String.intercalate ", " sampleButton.tags) = true ∧
      jsIncludes (get_component_api [sampleAccordion, sampleButton] "button")
        (apiContentOf sampleButton.content.value) = true ∧
      (∀ i, jsIndexOf sampleButton.content.value apiMarker = some i →
        apiContentOf sampleButton.content.value =
          String.mk (sampleButton.content.value.data.drop i) ∧
        apiMarker.data.isPrefixOf (sampleButton.content.value.data.drop i) = true ∧
        ∀ j, j < i →
          apiMarker.data.isPrefixOf (sampleButton.content.value.data.drop j) = false) ∧
      (jsIndexOf sampleButton.content.value apiMarker = none →
        apiContentOf sampleButton.content.value = sampleButton.content.value)) :=
  ⟨by decide, c7_api_extract [sampleAccordion, sampleButton] "button" sampleButton (by decide)⟩

/-! ## Claim C10 -/

/-- C10: the found branch of `GetComponentAPI` displays the raw
`metadata.file.split('/')[0]` with no `Unknown` fallback, so a document
whose `metadata.file` is empty or begins with `/` shows an empty category
(`Category: ` is immediately followed by the `Tags:` line) — unlike
`Search` and `ListCategories`, whose category substitutes the literal
`Unknown` for an empty first path segment. -/
theorem c10_category_no_fallback (d : PrimeVueDoc)
    (h : d.metadata.file = "" ∨ d.metadata.file.data.head? = some '/') :
    fileFirstSeg d.metadata.file = "" ∧
    categoryOrUnknown d.metadata.file = "Unknown" ∧
    (∀ st, (mkSearchResult st d).category = "Unknown") ∧
    (∀ docs, ("Unknown", d.title) ∈ listCategoryPairs (d :: docs) none) ∧
    (∀ docs c, getComponentDoc docs c = some d →
      jsIncludes (get_component_api docs c) "Category: \nTags: " = true) := by
  have hseg : fileFirstSeg d.metadata.file = "" := by
    rcases h with h | h
    · rw [h]
      rfl
    · cases hd : d.metadata.file.data with
      | nil => rw [hd] at h; cases h
      | cons c0 rest =>
        rw [hd] at h
        have hc0 : c0 = '/' := by simpa using h
        subst hc0
        unfold fileFirstSeg jsSplit
        rw [hd]
        simp [splitCharAux]
  have hcat : categoryOrUnknown d.metadata.file = "Unknown" := by
    unfold categoryOrUnknown
    rw [hseg]
    simp
  refine ⟨hseg, hcat, ?_, ?_, ?_⟩
  · intro st
    simp [mkSearchResult, hcat]
  · intro docs
    rw [listCategoryPairs_none, List.map_cons, hcat]
    exact List.mem_cons_self _ _
  · intro docs c hfind
    have happ : get_component_api docs c = componentApiText d := by
      unfold get_component_api
      rw [hfind]
    rw [happ]
    apply jsIncludes_of_parts _ _ (("# " ++ d.title ++ " API Reference\n").data)
      ((String.intercalate ", " d.tags ++ "\n\n" ++ apiContentOf d.content.value).data)
    have hlit : (" API Reference\n".data ++ "Category: \nTags: ".data : List Char) =
        " API Reference\nCategory: ".data ++ "\nTags: ".data := by decide
    simp only [componentApiText, String.data_append, hseg, List.append_assoc,
      List.nil_append]
    rw [← List.append_assoc (" API Reference\n".data), hlit]
    simp [String.data_append, List.append_assoc]

/-- Witness for C10: `sampleGhost` has an empty `metadata.file`; found via
its exact title, its API text shows an empty category while the search and
category listings show `Unknown`. -/
theorem c10_category_no_fallback_witness :
    (sampleGhost.metadata.file = "" ∨ sampleGhost.metadata.file.data.head? = some '/') ∧
    (fileFirstSeg sampleGhost.metadata.file = "" ∧
      categoryOrUnknown sampleGhost.metadata.file = "Unknown" ∧
      (∀ st, (mkSearchResult st sampleGhost).category = "Unknown") ∧
      (∀ docs, ("Unknown", sampleGhost.title) ∈ listCategoryPairs (sampleGhost :: docs) none) ∧
      (∀ docs c, getComponentDoc docs c = some sampleGhost →
        jsIncludes (get_component_api docs c) "Category: \nTags: " = true)) :=
  ⟨Or.inl (by decide), c10_category_no_fallback sampleGhost (Or.inl (by decide))⟩

/-! ## Claim C4 -/

theorem flattenGroups_length (gs : List (String × List String)) :
    (flattenGroups gs).length = (gs.map (fun g => g.2.length)).sum := by
  induction gs with
  | nil => rfl
  | cons g gs ih =>
    have hc : (flattenGroups (g :: gs)).length = g.2.length + (flattenGroups gs).length := by
      simp [flattenGroups]
    rw [hc, ih, List.map_cons, List.sum_cons]

/-- C4: when `GetComponentAPI` finds no document it returns the grouped
listing built from `componentsByCategory`, whose groups carry every loaded
document's (category, title) pair — hence every title — exactly once, have
pairwise-distinct category keys sorted lexicographically, and list each
group's titles sorted lexicographically. -/
theorem c4_fallback_listing (docs : List PrimeVueDoc) (c : String)
    (h : getComponentDoc docs c = none) :
    get_component_api docs c =
      "Component \"" ++ c ++ "\" not found.\n\nAvailable components:\n" ++
        availableListText docs ∧
    (flattenGroups (componentsByCategory docs)).Perm
      (docs.map (fun d => (categoryOrUnknown d.metadata.file, d.title))) ∧
    ((flattenGroups (componentsByCategory docs)).map Prod.snd).Perm
      (docs.map (fun d => d.title)) ∧
    ((componentsByCategory docs).map Prod.fst).Nodup ∧
    ((componentsByCategory docs).map Prod.fst).Pairwise strLeRel ∧
    (∀ g ∈ componentsByCategory docs, g.2.Pairwise strLeRel) := by
  have hsorted : (availableComponents docs).Pairwise catTitleLe := by
    unfold availableComponents
    exact @List.sorted_insertionSort _ catTitleLe _ catTitleLe_isTotal catTitleLe_isTrans _
  have hperm1 : (flattenGroups (componentsByCategory docs)).Perm (availableComponents docs) := by
    have hp := flattenGroups_foldl (availableComponents docs) [] (by simp)
    simpa [componentsByCategory, flattenGroups] using hp
  have hperm2 : (availableComponents docs).Perm
      (docs.map (fun d => (categoryOrUnknown d.metadata.file, d.title))) :=
    List.perm_insertionSort catTitleLe _
  have hperm := hperm1.trans hperm2
  have hinv := foldl_groupInsert_sorted (availableComponents docs) [] hsorted
    (by simp) (by simp) (by simp) (by simp) (by simp)
  refine ⟨?_, hperm, ?_, ?_, hinv.1, hinv.2⟩
  · unfold get_component_api
    rw [h]
  · have := hperm.map Prod.snd
    rw [List.map_map] at this
    simpa using this
  · exact nodup_groupKeys_foldl (availableComponents docs) [] (by simp)

/-- Witness for C4: an unknown component name over a three-document,
two-category corpus reaches the fallback listing. -/
theorem c4_fallback_listing_witness :
    getComponentDoc [sampleButton, sampleZebra, sampleAccordion] "nosuch" = none ∧
    (get_component_api [sampleButton, sampleZebra, sampleAccordion] "nosuch" =
      "Component \"" ++ "nosuch" ++ "\" not found.\n\nAvailable components:\n" ++
        availableListText [sampleButton, sampleZebra, sampleAccordion] ∧
    (flattenGroups (componentsByCategory [sampleButton, sampleZebra, sampleAccordion])).Perm
      ([sampleButton, sampleZebra, sampleAccordion].map
        (fun d => (categoryOrUnknown d.metadata.file, d.title))) ∧
    ((flattenGroups
        (componentsByCategory [sampleButton, sampleZebra, sampleAccordion])).map
          Prod.snd).Perm
      ([sampleButton, sampleZebra, sampleAccordion].map (fun d => d.title)) ∧
    ((componentsByCategory [sampleButton, sampleZebra, sampleAccordion]).map
      Prod.fst).Nodup ∧
    ((componentsByCategory [sampleButton, sampleZebra, sampleAccordion]).map
      Prod.fst).Pairwise strLeRel ∧
    (∀ g ∈ componentsByCategory [sampleButton, sampleZebra, sampleAccordion],
      g.2.Pairwise strLeRel)) :=
  ⟨by decide,
    c4_fallback_listing [sampleButton, sampleZebra, sampleAccordion] "nosuch" (by decide)⟩

/-! ## Claim C9 -/

/-- C9: `ListCategories()` with no filter yields exactly one group per
distinct category value occurring in the corpus (`Unknown` standing in for
an empty first path segment), the group sizes sum to the number of loaded
documents, and each group is rendered with its name, its item count, and
its titles sorted lexicographically. -/
theorem c9_list_categories (docs : List PrimeVueDoc) :
    ((categoriesGroups docs none).map Prod.fst).Nodup ∧
    (∀ cat, cat ∈ (categoriesGroups docs none).map Prod.fst ↔
      ∃ d ∈ docs, categoryOrUnknown d.metadata.file = cat) ∧
    ((categoriesGroups docs none).map (fun g => g.2.length)).sum = docs.length ∧
    (∀ g ∈ categoriesGroups docs none,
      (sortStrings g.2).Pairwise strLeRel ∧
      (sortStrings g.2).Perm g.2 ∧
      renderCategoryGroup g =
        "**" ++ g.1 ++ "** (" ++ toString g.2.length ++ " items)\n" ++
          String.intercalate "\n" ((sortStrings g.2).map (fun t => "  - " ++ t))) ∧
    list_categories docs none =
      "PrimeVue Documentation Categories:\n\n" ++
        String.intercalate "\n\n" ((categoriesGroups docs none).map renderCategoryGroup) := by
  refine ⟨?_, ?_, ?_, ?_, ?_⟩
  · exact nodup_groupKeys_foldl (listCategoryPairs docs none) [] (by simp)
  · intro cat
    have hgoal : categoriesGroups docs none =
        (docs.map (fun d => (categoryOrUnknown d.metadata.file, d.title))).foldl
          groupInsert [] := by
      unfold categoriesGroups
      rw [listCategoryPairs_none]
    rw [hgoal, mem_groupKeys_foldl]
    simp [List.mem_map]
  · rw [← flattenGroups_length]
    have hp := (flattenGroups_foldl (listCategoryPairs docs none) [] (by simp)).length_eq
    simp only [flattenGroups, List.flatMap_nil, List.nil_append] at hp
    have hq : (listCategoryPairs docs none).length = docs.length := by
      rw [listCategoryPairs_none, List.length_map]
    exact hp.trans hq
  · intro g hg
    refine ⟨?_, ?_, ?_⟩
    · unfold sortStrings
      exact @List.sorted_insertionSort _ strLeRel _ strLeRel_isTotal strLeRel_isTrans _
    · unfold sortStrings
      exact List.perm_insertionSort strLeRel g.2
    · unfold renderCategoryGroup
      rw [show (sortStrings g.2).length = g.2.length from
        (List.perm_insertionSort strLeRel g.2).length_eq]
  · rfl

end PrimeVue
